import Mathlib

/-!
Verification development for the fmcardgen field-rendering engine
(`src/fmcardgen/draw.py`): the pixel-width greedy text wrapper
(`wrap_font_text`, built on CPython `textwrap.TextWrapper._split_chunks`)
and the drawing / compositing pipeline (`draw_text_field`, `draw`,
`to_pil_color`, built on PIL).

The Python code is shallowly embedded:

* strings are Lean `String`s (lists of characters), machine integers are
  `Int`/`Nat`, Python floats are idealized as `Rat`;
* the CPython `textwrap` tokenizer (`_munge_whitespace` followed by
  splitting on `wordsep_re`) is translated into an executable matcher.
  Since every position of the munged text starts a `wordsep_re` match,
  `re.split` with a capturing group degenerates into repeatedly taking
  the match at the current position, which is what the matcher does.
  The regex character classes (`\w`, `[^\d\W]`, the word-punctuation
  class) are embedded in their ASCII fragment; all concrete inputs used
  below are ASCII, where the embedding agrees with Python exactly;
* PIL images are grids of rational RGBA pixels plus a mode tag; PIL's
  `Image.alpha_composite` is embedded as exact Porter-Duff source-over
  on straight (non-premultiplied) alpha, with the documented mode check;
  glyph rasterization (`ImageDraw.text`, `textbbox`, font loading) is
  kept abstract as parameters of the drawing environment;
* the configuration layer (`fmcardgen/config.py`, not part of the source
  tree here) is modelled from the spec where needed.
-/

namespace FMCardGen

/-! ## Python character predicates -/

/-- Python `str.isspace` on a single character: the Unicode whitespace
set used by CPython (`Py_UNICODE_ISSPACE`). -/
def pyIsSpace (c : Char) : Bool :=
  [' ', '\t', '\n', '\x0b', '\x0c', '\r',
   '\x1c', '\x1d', '\x1e', '\x1f', '\x85', ' ',
   ' ', ' ', ' ', ' ', ' ', ' ', ' ',
   ' ', ' ', ' ', ' ', ' ',
   ' ', ' ', ' ', ' ', '　'].contains c

/-- The `textwrap._whitespace` class: exactly the six characters
`'\t\n\x0b\x0c\r '` that `wordsep_re` treats as whitespace and that
`_munge_whitespace` translates to plain spaces. -/
def wsChar (c : Char) : Bool :=
  ['\t', '\n', '\x0b', '\x0c', '\r', ' '].contains c

/-- ASCII fragment of the regex class `\w` (word character). -/
def wordChar (c : Char) : Bool :=
  c.isAlphanum || c = '_'

/-- ASCII fragment of the regex class `[^\d\W]` (`letter` in
`textwrap.wordsep_re`): a word character that is not a digit. -/
def letterChar (c : Char) : Bool :=
  c.isAlpha || c = '_'

/-- ASCII fragment of `textwrap.word_punct`, the class
`[\w!"\'&.,?]`. -/
def wordPunctChar (c : Char) : Bool :=
  wordChar c || ['!', '"', (Char.ofNat 39), '&', '.', ',', '?'].contains c

/-! ## CPython `textwrap` whitespace munging

`TextWrapper._munge_whitespace` with the default settings
(`expand_tabs=True`, `tabsize=8`, `replace_whitespace=True`): expand
tabs to the next multiple-of-8 column (column resets after `\n` and
`\r`), then translate each of the six `_whitespace` characters to a
plain space. -/

/-- Python `str.expandtabs(8)` on a character list, tracking the current
column. -/
def expandTabs : List Char → Nat → List Char
  | [], _ => []
  | c :: cs, col =>
    if c = '\t' then
      let n := 8 - col % 8
      List.replicate n ' ' ++ expandTabs cs (col + n)
    else if c = '\n' ∨ c = '\r' then c :: expandTabs cs 0
    else c :: expandTabs cs (col + 1)

/-- Python `TextWrapper._munge_whitespace` with default settings. -/
def mungeWhitespace (l : List Char) : List Char :=
  (expandTabs l 0).map (fun c => if wsChar c then ' ' else c)

/-- String-level whitespace munging. -/
def mungeStr (s : String) : String :=
  String.mk (mungeWhitespace s.data)

/-! ## The `wordsep_re` matcher

`textwrap.TextWrapper.wordsep_re` (the default splitter, since
`break_on_hyphens=True`) is the alternation

  whitespace-run | em-dash-between-words | word-possibly-ending-in-hyphen

and a word match `[^ws]+?` (non-greedy) terminates, in this priority
order, by consuming a hyphen at an intra-word hyphenation point, at a
whitespace boundary or end of input, or just before an em-dash.  The
lookbehinds reach across match boundaries, so the matcher carries the
reversed already-consumed text. -/

/-- Length of the leading run of `'-'`. -/
def dashRun (l : List Char) : Nat :=
  (l.takeWhile (fun c => c = '-')).length

/-- The lookahead `(?= letter -? letter)` after a consumed hyphen. -/
def hyphenLookahead : List Char → Bool
  | a :: b :: rest =>
    letterChar a &&
      (letterChar b ||
        (b = '-' && (match rest with | d :: _ => letterChar d | [] => false)))
  | _ => false

/-- The hyphenated-word alternative: consume a `'-'` whose lookbehind is
`(?<=letter letter -)` or `(?<=letter - letter -)` and whose lookahead is
`(?= letter -? letter)`.  `before` is the reversed text to the left of
the hyphen. -/
def hyphenCond (before rest : List Char) : Bool :=
  match rest with
  | c :: t =>
    c = '-' &&
      ((match before with
        | b0 :: b1 :: _ => letterChar b0 && letterChar b1
        | _ => false) ||
       (match before with
        | b0 :: b1 :: b2 :: _ => letterChar b0 && b1 = '-' && letterChar b2
        | _ => false)) &&
      hyphenLookahead t
  | [] => false

/-- The em-dash condition `(?<=word_punct) -{2,} (?=\w)` at the current
position: word-punctuation immediately behind, a run of at least two
dashes ahead, and a word character right after the run.  (Because a
shorter dash prefix is followed by another dash, which is not a word
character, the greedy `-{2,}` can only succeed on the full run.) -/
def emDashCond (before rest : List Char) : Bool :=
  (match before with | b :: _ => wordPunctChar b | [] => false) &&
    decide (2 ≤ dashRun rest) &&
    (match rest.dropWhile (fun c => c = '-') with
     | d :: _ => wordChar d
     | [] => false)

/-- The word alternative `[^ws]+?(?: hyphen | end-of-word | em-dash )`:
extend the non-greedy run one character at a time; at each boundary try,
in order, the hyphen alternative (which consumes the hyphen), the
end-of-word lookahead (whitespace or end of input), and the em-dash
lookahead.  `acc` is the reversed run consumed so far (nonempty),
`before` the reversed text left of the match start. -/
def matchWord (before : List Char) (acc : List Char) :
    List Char → List Char × List Char
  | [] => (acc.reverse, [])
  | c :: cs =>
    if hyphenCond (acc ++ before) (c :: cs) then (acc.reverse ++ [c], cs)
    else if wsChar c then (acc.reverse, c :: cs)
    else if emDashCond (acc ++ before) (c :: cs) then (acc.reverse, c :: cs)
    else matchWord before (c :: acc) cs

/-- One `wordsep_re` match at the current position (which always
succeeds on a nonempty rest): a whitespace run, an em-dash run between
words, or a word.  Returns the matched chunk and the remaining text. -/
def matchAt (before rest : List Char) : List Char × List Char :=
  match rest with
  | [] => ([], [])
  | c :: _ =>
    if wsChar c then (rest.takeWhile wsChar, rest.dropWhile wsChar)
    else if emDashCond before rest then
      (rest.takeWhile (fun x => x = '-'), rest.dropWhile (fun x => x = '-'))
    else matchWord before [c] rest.tail

/-- Iterate `matchAt` over the whole text.  Since every position starts
a match, `re.split` with the capturing group produces exactly the
successive matches (the in-between segments are empty and are filtered
out by `_split`). -/
def splitChunksGo : Nat → List Char → List Char → List (List Char)
  | 0, _, _ => []
  | _ + 1, _, [] => []
  | fuel + 1, before, c :: cs =>
    let m := matchAt before (c :: cs)
    m.1 :: splitChunksGo fuel (m.1.reverse ++ before) m.2

/-- Python `TextWrapper()._split_chunks(text)` with the default settings:
munge whitespace, then split on `wordsep_re`. -/
def split_chunks (s : String) : List String :=
  let m := mungeWhitespace s.data
  (splitChunksGo m.length [] m).map (fun l => String.mk l)

/-! ## The wrapping loop (`wrap_font_text`, draw.py lines 87-120) -/

/-- Python `str.strip()` (strip Unicode whitespace from both ends). -/
def pyStripList (l : List Char) : List Char :=
  ((l.dropWhile pyIsSpace).reverse.dropWhile pyIsSpace).reverse

/-- Python `str.strip()` at the string level. -/
def pyStrip (s : String) : String :=
  String.mk (pyStripList s.data)

/-- Python `str.isspace()`: nonempty and all characters whitespace. -/
def pyIsSpaceStr (s : String) : Bool :=
  !s.data.isEmpty && s.data.all pyIsSpace

/-- The mutable state of the loop in `wrap_font_text`: the emitted
`lines`, the current line `cur_line`, and `cur_line_width`. -/
structure WrapState where
  lines : List (List String)
  curLine : List String
  curWidth : Nat
deriving DecidableEq, Repr

/-- One iteration of the `for chunk in chunks` loop of
`wrap_font_text`.  `w` is the width component of `font.getsize`. -/
def wrapStep (w : String → Nat) (maxWidth : Int) (st : WrapState)
    (chunk : String) : WrapState :=
  if (st.curWidth : Int) + (w chunk : Int) > maxWidth then
    if st.curWidth = 0 then
      ⟨st.lines ++ [[chunk]], [], 0⟩
    else
      ⟨st.lines ++ [st.curLine],
       if pyIsSpaceStr chunk then [] else [chunk],
       w chunk⟩
  else
    ⟨st.lines, st.curLine ++ [chunk], st.curWidth + w chunk⟩

/-- The list of emitted lines (as chunk lists) produced by the loop of
`wrap_font_text` on a given chunk list, including the final
`if cur_line: lines.append(cur_line)`. -/
def wrapLinesOf (w : String → Nat) (maxWidth : Int)
    (chunks : List String) : List (List String) :=
  let st := chunks.foldl (wrapStep w maxWidth) ⟨[], [], 0⟩
  if st.curLine.isEmpty then st.lines else st.lines ++ [st.curLine]

/-- The function `wrap_font_text(font, text, max_width)`, with the font abstracted to
its measuring function `w` (the width component of `font.getsize`):
tokenize, run the greedy loop, then join each line's chunks, strip, and
join the lines with newlines. -/
def wrap_font_text (w : String → Nat) (text : String) (maxWidth : Int) :
    String :=
  String.intercalate "\n"
    ((wrapLinesOf w maxWidth (split_chunks text)).map
      (fun line => pyStrip (String.join line)))

/-- Sum of the measured widths of a line's chunks. -/
def lineWidth (w : String → Nat) (line : List String) : Nat :=
  (line.map w).sum

/-! ## Colors (`to_pil_color`, draw.py lines 126-140)

Modelled from the spec: the pydantic `Color` type (from the
configuration layer, which is not part of the source tree here) exposes
`as_rgb_tuple()`, returning either a 3-tuple of integer channels or a
4-tuple whose alpha channel is a fraction between 0 and 1.  We model a
color directly by that tuple, with the fraction idealized as a rational
number. -/

/-- The result of `Color.as_rgb_tuple()`: 3 integer channels, or 3
integer channels plus a fractional alpha. -/
inductive PyColor where
  | rgb (r g b : Int)
  | rgba (r g b : Int) (a : Rat)
deriving DecidableEq, Repr

/-- A PIL color tuple (`PILColorTuple` in draw.py): 3 or 4 integer
channels. -/
inductive PilColor where
  | rgb (r g b : Int)
  | rgba (r g b a : Int)
deriving DecidableEq, Repr

/-- Python builtin `round` on a rational: round to the nearest integer,
ties to the even integer (banker's rounding). -/
def pyRound (q : Rat) : Int :=
  if q - ⌊q⌋ < 1 / 2 then ⌊q⌋
  else if 1 / 2 < q - ⌊q⌋ then ⌊q⌋ + 1
  else if Even ⌊q⌋ then ⌊q⌋ else ⌊q⌋ + 1

/-- The function `to_pil_color(color)` (draw.py lines 126-140): a 3-tuple passes
through unchanged; a 4-tuple keeps its RGB channels and replaces the
fractional alpha by `round(a * 255)`. -/
def to_pil_color : PyColor → PilColor
  | .rgb r g b => .rgb r g b
  | .rgba r g b a => .rgba r g b (pyRound (a * 255))

/-! ## The image model

A PIL image is modelled as a mode tag, a size, and a pixel grid of
rational RGBA values (channels on the 0-255 scale, exact arithmetic).
`Image.alpha_composite` is exact Porter-Duff source-over on straight
alpha, and raises unless both images have mode RGBA. -/

/-- One RGBA pixel; channels are rationals on the 0-255 scale. -/
structure RGBA where
  r : Rat
  g : Rat
  b : Rat
  a : Rat
deriving DecidableEq, Repr

/-- The fully transparent pixel. -/
def RGBA.clear : RGBA := ⟨0, 0, 0, 0⟩

/-- The pixel modes relevant here: opaque `RGB` or alpha-capable
`RGBA`. -/
inductive PixMode where
  | RGB
  | RGBA
deriving DecidableEq, Repr

/-- An image surface: size, pixel mode, and pixel grid. -/
structure Img where
  width : Nat
  height : Nat
  mode : PixMode
  pix : Int → Int → RGBA

/-- PIL `Image.new(mode="RGBA", size=(w, h), color=(0, 0, 0, 0))`: a fully
transparent RGBA image. -/
def transparentImage (w h : Nat) : Img :=
  ⟨w, h, PixMode.RGBA, fun _ _ => RGBA.clear⟩

/-- An axis-aligned box `(x0, y0, x1, y1)`, as returned by
`ImageDraw.textbbox` and consumed by `ImageDraw.rectangle` (which fills
inclusively of both corners). -/
structure BBox where
  x0 : Int
  y0 : Int
  x1 : Int
  y1 : Int
deriving DecidableEq, Repr

/-- Membership of a pixel coordinate in a box (inclusive). -/
def inBox (b : BBox) (x y : Int) : Bool :=
  decide (b.x0 ≤ x) && decide (x ≤ b.x1) &&
    decide (b.y0 ≤ y) && decide (y ≤ b.y1)

/-- The pixel value of a PIL color tuple on an RGBA surface: a 3-tuple
fill is fully opaque. -/
def pilColorToRGBA : PilColor → RGBA
  | .rgb r g b => ⟨r, g, b, 255⟩
  | .rgba r g b a => ⟨r, g, b, a⟩

/-- PIL `ImageDraw.rectangle(xy=(x0, y0, x1, y1), fill=c)`: overwrite every
pixel of the box with the fill color. -/
def fillRect (img : Img) (b : BBox) (c : RGBA) : Img :=
  { img with pix := fun x y => if inBox b x y then c else img.pix x y }

/-- Porter-Duff source-over on straight (non-premultiplied) alpha, the
compositing operation performed by PIL `Image.alpha_composite`:
with source and destination alpha fractions `sa = s.a/255` and
`da = d.a/255`, the output alpha fraction is `sa + da*(1 - sa)` and each
output color channel is the alpha-weighted average
`(s.c*sa + d.c*da*(1 - sa)) / oa` (fully transparent output when
`oa = 0`). -/
def over (s d : RGBA) : RGBA :=
  if s.a / 255 + d.a / 255 * (1 - s.a / 255) = 0 then RGBA.clear
  else
    ⟨(s.r * (s.a / 255) + d.r * (d.a / 255) * (1 - s.a / 255)) /
        (s.a / 255 + d.a / 255 * (1 - s.a / 255)),
     (s.g * (s.a / 255) + d.g * (d.a / 255) * (1 - s.a / 255)) /
        (s.a / 255 + d.a / 255 * (1 - s.a / 255)),
     (s.b * (s.a / 255) + d.b * (d.a / 255) * (1 - s.a / 255)) /
        (s.a / 255 + d.a / 255 * (1 - s.a / 255)),
     255 * (s.a / 255 + d.a / 255 * (1 - s.a / 255))⟩

/-- The pixel-level effect of `im.alpha_composite(overlay)`: every pixel
becomes the overlay pixel composited over the destination pixel. -/
def alphaComposite (dst src : Img) : Img :=
  { dst with pix := fun x y => over (src.pix x y) (dst.pix x y) }

/-- Errors of the drawing layer. -/
inductive DrawErr where
  | modeRGBARequired
deriving DecidableEq, Repr

/-- PIL `im.alpha_composite(overlay)` including the mode check: both the
destination and the overlay must have mode RGBA, otherwise a
`ValueError` is raised. -/
def alphaCompositeChecked (dst src : Img) : Except DrawErr Img :=
  if dst.mode = PixMode.RGBA ∧ src.mode = PixMode.RGBA then
    .ok (alphaComposite dst src)
  else
    .error .modeRGBARequired

/-! ## Field configuration

Modelled from the spec: `TextFieldConfig`, `PaddingConfig` and
`DEFAULT_FONT` live in the configuration layer (`fmcardgen/config.py`),
which is not part of the source tree here.  Per the spec a field has a
position, a font reference and size, foreground and optional background
colors, four padding insets, a wrap flag and an optional explicit max
width; `DEFAULT_FONT` is a distinguished sentinel value compared for
equality. -/

/-- Modelled from the spec: the "no font configured" sentinel value of
the configuration layer. -/
def DEFAULT_FONT : String := "default"

/-- Modelled from the spec: four independent padding insets. -/
structure PaddingConfig where
  top : Int
  right : Int
  bottom : Int
  left : Int
deriving DecidableEq, Repr

/-- Modelled from the spec: the per-field configuration consumed by
`draw_text_field`. -/
structure TextFieldConfig where
  x : Int
  y : Int
  font : String
  font_size : Nat
  fg : PyColor
  bg : Option PyColor
  padding : PaddingConfig
  wrap : Bool
  max_width : Option Int
deriving DecidableEq, Repr

/-! ## The drawing pipeline (`draw_text_field`, draw.py lines 50-84)

Font loading, glyph measurement (`textbbox`) and glyph rasterization
(`ImageDraw.text`) are external PIL primitives; they are abstracted as
components of a drawing environment. -/

/-- A loaded font: `getsize` returns a (width, height) measurement. -/
structure Font where
  getsize : String → Nat × Nat

/-- The external PIL primitives used by `draw_text_field`. -/
structure DrawEnv where
  loadDefault : Font
  truetype : String → Nat → Font
  textbbox : Font → Int × Int → String → BBox
  drawText : Img → Int × Int → String → Font → PilColor → Img

/-- Lines 51-54: use the embedded default font when the sentinel is
configured, else load the configured font at the configured size. -/
def resolveFont (env : DrawEnv) (f : TextFieldConfig) : Font :=
  if f.font = DEFAULT_FONT then env.loadDefault
  else env.truetype f.font f.font_size

/-- Line 57: `field.max_width if field.max_width else im.width -
field.x`.  Python truthiness: both `None` and `0` select the
fallback. -/
def effectiveMaxWidth (im : Img) (f : TextFieldConfig) : Int :=
  match f.max_width with
  | some m => if m ≠ 0 then m else (im.width : Int) - f.x
  | none => (im.width : Int) - f.x

/-- Lines 56-58: when wrapping is requested the text is replaced by the
wrapper's output at the effective max width, measured with the resolved
font. -/
def resolvedText (env : DrawEnv) (im : Img) (text : String)
    (f : TextFieldConfig) : String :=
  if f.wrap then
    wrap_font_text (fun s => ((resolveFont env f).getsize s).1) text
      (effectiveMaxWidth im f)
  else text

/-- Lines 63-70: the text bounding box at the field anchor, expanded
outward by the four padding insets. -/
def paddedBBox (env : DrawEnv) (im : Img) (text : String)
    (f : TextFieldConfig) : BBox :=
  let b := env.textbbox (resolveFont env f) (f.x, f.y)
    (resolvedText env im text f)
  ⟨b.x0 - f.padding.left, b.y0 - f.padding.top,
   b.x1 + f.padding.right, b.y1 + f.padding.bottom⟩

/-- Lines 76-80: the background overlay: a fully transparent RGBA image
of the same size as the target surface, with the padded background
rectangle drawn onto it in the converted background color. -/
def bgOverlay (env : DrawEnv) (im : Img) (text : String)
    (f : TextFieldConfig) (c : PyColor) : Img :=
  fillRect (transparentImage im.width im.height) (paddedBBox env im text f)
    (pilColorToRGBA (to_pil_color c))

/-- The function `draw_text_field(im, text, field)` (draw.py lines 50-84): resolve
the font, wrap the text if requested; if a background is configured,
draw it on the transparent overlay, alpha-composite the overlay onto the
surface (which raises unless the surface is RGBA), and finally draw the
text directly onto the surface. -/
def draw_text_field (env : DrawEnv) (im : Img) (text : String)
    (f : TextFieldConfig) : Except DrawErr Img :=
  let font := resolveFont env f
  let text2 := resolvedText env im text f
  match f.bg with
  | some c =>
    (alphaCompositeChecked im (bgOverlay env im text f c)).map
      (fun im2 => env.drawText im2 (f.x, f.y) text2 font (to_pil_color f.fg))
  | none => .ok (env.drawText im (f.x, f.y) text2 font (to_pil_color f.fg))

/-! ## The rendering pass (`draw`, draw.py lines 10-47)

For the error-propagation claim the per-field pipeline is viewed at the
level of its two fallible stages: resolving the field's value (lines
15-43, via the front-matter collaborator) and rendering it (line 45,
`draw_text_field`).  The Python code contains no `try`/`except`, so in
the embedding each stage returns `Except` and the field loop is the
monadic fold of the stages, in which an error short-circuits. -/

/-- The fallible per-field collaborators of `draw`. -/
structure RenderOps (ε : Type) where
  resolveValue : TextFieldConfig → Except ε String
  renderField : Img → String → TextFieldConfig → Except ε Img

/-- One iteration of the `for field in cnf.text_fields` loop: resolve
the value, then render the field. -/
def drawStep {ε : Type} (ops : RenderOps ε) (im : Img)
    (f : TextFieldConfig) : Except ε Img :=
  (ops.resolveValue f).bind fun v => ops.renderField im v f

/-- The function `draw(fm, cnf)` from the opened template image onward: the field
loop, sequenced in the `Except` monad (no error is caught). -/
def drawFields {ε : Type} (ops : RenderOps ε) (im : Img)
    (fields : List TextFieldConfig) : Except ε Img :=
  fields.foldlM (drawStep ops) im

/-- Instrumented run of the field loop: also returns the list of fields
whose rendering was attempted, in order. -/
def drawFieldsTrace {ε : Type} (ops : RenderOps ε) :
    Img → List TextFieldConfig → Except ε Img × List TextFieldConfig
  | im, [] => (.ok im, [])
  | im, f :: rest =>
    match drawStep ops im f with
    | .error e => (.error e, [f])
    | .ok im2 =>
      let r := drawFieldsTrace ops im2 rest
      (r.1, f :: r.2)

/-! ## Spec-side tokenization

For the refinement claim about the tokenizer, the spec's own
description of a chunk is embedded separately, to be compared with the
source's `split_chunks`. -/

/-- Definition following the spec's words, not the source: split a
string into alternating maximal runs of whitespace and non-whitespace
characters, covering the string exactly. -/
def specChunkRuns : Nat → List Char → List (List Char)
  | 0, _ => []
  | _ + 1, [] => []
  | fuel + 1, c :: cs =>
    let t := cs.takeWhile (fun d => pyIsSpace d = pyIsSpace c)
    (c :: t) :: specChunkRuns fuel (cs.drop t.length)

/-- Definition following the spec's words, not the source: the
alternating maximal-run tokenization of a string. -/
def specChunks (s : String) : List String :=
  (specChunkRuns s.data.length s.data).map (fun l => String.mk l)

/-! ## Tokenizer lemmas -/

/-- A word match consumes exactly what it returns: the chunk followed by
the rest re-assembles the reversed accumulator and the remaining
input. -/
theorem matchWord_append (before : List Char) :
    ∀ (rest acc : List Char),
      (matchWord before acc rest).1 ++ (matchWord before acc rest).2 =
        acc.reverse ++ rest := by
  intro rest
  induction rest with
  | nil => intro acc; simp [matchWord]
  | cons c cs ih =>
    intro acc
    unfold matchWord
    by_cases h1 : hyphenCond (acc ++ before) (c :: cs)
    · simp [h1]
    · by_cases h2 : wsChar c
      · simp [h1, h2]
      · by_cases h3 : emDashCond (acc ++ before) (c :: cs)
        · simp [h1, h2, h3]
        · simpa [h1, h2, h3] using ih (c :: acc)

/-- A word match returns a nonempty chunk whenever the accumulator is
nonempty. -/
theorem matchWord_ne_nil (before : List Char) :
    ∀ (rest acc : List Char), acc ≠ [] →
      (matchWord before acc rest).1 ≠ [] := by
  intro rest
  induction rest with
  | nil =>
    intro acc hacc
    simpa [matchWord] using hacc
  | cons c cs ih =>
    intro acc hacc
    unfold matchWord
    by_cases h1 : hyphenCond (acc ++ before) (c :: cs)
    · simp [h1]
    · by_cases h2 : wsChar c
      · simpa [h1, h2] using hacc
      · by_cases h3 : emDashCond (acc ++ before) (c :: cs)
        · simpa [h1, h2, h3] using hacc
        · simpa [h1, h2, h3] using ih (c :: acc) (by simp)

/-- A `wordsep_re` match at a nonempty position consumes exactly its
chunk, and the chunk is nonempty. -/
theorem matchAt_spec (before : List Char) (c : Char) (cs : List Char) :
    (matchAt before (c :: cs)).1 ++ (matchAt before (c :: cs)).2 = c :: cs ∧
      (matchAt before (c :: cs)).1 ≠ [] := by
  unfold matchAt
  by_cases h1 : wsChar c
  · constructor
    · simp [h1, List.takeWhile_append_dropWhile]
    · simp [h1, List.takeWhile_cons]
  · by_cases h2 : emDashCond before (c :: cs)
    · constructor
      · simp [h1, h2, List.takeWhile_append_dropWhile]
      · have hd : 2 ≤ dashRun (c :: cs) := by
          have h2' := h2
          unfold emDashCond at h2'
          simp only [Bool.and_eq_true, decide_eq_true_eq] at h2'
          exact h2'.1.2
        intro hnil
        simp only [matchAt, h1, h2, if_neg, if_pos, Bool.false_eq_true,
          not_false_eq_true, if_true] at hnil
        rw [dashRun] at hd
        rw [hnil] at hd
        simp at hd
    · have := matchWord_append before cs [c]
      have hne := matchWord_ne_nil before cs [c] (by simp)
      constructor
      · simpa [h1, h2] using this
      · simpa [h1, h2] using hne

/-- Concatenating the successive `wordsep_re` matches reproduces the
(already munged) text, given enough fuel. -/
theorem splitChunksGo_flatten :
    ∀ (fuel : Nat) (before rest : List Char), rest.length ≤ fuel →
      (splitChunksGo fuel before rest).flatten = rest := by
  intro fuel
  induction fuel with
  | zero =>
    intro before rest h
    have : rest = [] := List.eq_nil_of_length_eq_zero (Nat.le_zero.mp h)
    simp [this, splitChunksGo]
  | succ n ih =>
    intro before rest h
    match rest with
    | [] => simp [splitChunksGo]
    | c :: cs =>
      have hs := matchAt_spec before c cs
      have hcs : cs.length + 1 ≤ n + 1 := by simpa using h
      have hlen : (matchAt before (c :: cs)).2.length ≤ n := by
        have h1 : (matchAt before (c :: cs)).1.length +
            (matchAt before (c :: cs)).2.length = cs.length + 1 := by
          have := congrArg List.length hs.1
          simpa [List.length_append] using this
        have h2 : 1 ≤ (matchAt before (c :: cs)).1.length :=
          Nat.one_le_iff_ne_zero.mpr (by
            simpa [List.length_eq_zero] using hs.2)
        omega
      simp only [splitChunksGo, List.flatten_cons]
      rw [ih _ _ hlen, hs.1]

/-- Chunk concatenation at the string level: joining the chunk strings
is concatenating the underlying character lists. -/
theorem string_join_mk (ls : List (List Char)) :
    String.join (ls.map (fun l => String.mk l)) = String.mk ls.flatten := by
  apply String.ext
  have base : ∀ (acc : String) (ls : List (List Char)),
      (List.foldl (fun r s => r ++ s) acc (ls.map (fun l => String.mk l))).data =
        acc.data ++ ls.flatten := by
    intro acc ls
    induction ls generalizing acc with
    | nil => simp
    | cons l ls ih =>
      simp only [List.map_cons, List.foldl_cons, List.flatten_cons]
      rw [ih]
      simp [String.data_append]
  simpa [String.join] using base "" ls

/-- Claim C3 counterexample: the tokenizer is not the alternating
maximal-run tokenization of the input, and chunk concatenation does not
reproduce the input.  On `"aa-bb"` the hyphenated word is split into two
adjacent non-whitespace chunks (unlike the single maximal run), and on
`"a\nb"` the newline is munged to a space before splitting, so the
concatenation differs from the input. -/
theorem c3_tokenization_counterexample :
    split_chunks "aa-bb" = ["aa-", "bb"] ∧
      specChunks "aa-bb" = ["aa-bb"] ∧
      String.join (split_chunks "a\nb") = "a b" ∧
      mungeStr "a\nb" = "a b" := by
  refine ⟨by decide, by decide, by decide, by decide⟩

/-- Claim C3 (amended): concatenating all chunks reproduces the
whitespace-munged input (tabs expanded with tab stops of 8, the
remaining `textwrap` whitespace characters replaced by spaces), for all
inputs; it reproduces the input itself only up to that munging, and the
chunks need not be alternating maximal whitespace/non-whitespace runs
(hyphenated words are split). -/
theorem c3_tokenization_lossless (s : String) :
    String.join (split_chunks s) = mungeStr s := by
  unfold split_chunks mungeStr
  rw [string_join_mk, splitChunksGo_flatten _ _ _ (Nat.le_refl _)]

/-! ## Lemmas about stripping -/

/-- Dropping while a predicate fails on every element is the
identity. -/
theorem dropWhile_eq_self_of_all {p : Char → Bool} :
    ∀ {l : List Char}, l.all (fun c => !p c) → l.dropWhile p = l := by
  intro l h
  match l with
  | [] => rfl
  | c :: cs =>
    simp only [List.all_cons, Bool.and_eq_true, Bool.not_eq_true'] at h
    simp [List.dropWhile_cons, h.1]

/-- Python `str.strip()` is the identity on strings with no Python whitespace
characters. -/
theorem pyStrip_of_no_ws (s : String)
    (h : s.data.all (fun c => !pyIsSpace c)) : pyStrip s = s := by
  apply String.ext
  show pyStripList s.data = s.data
  unfold pyStripList
  rw [dropWhile_eq_self_of_all h]
  rw [dropWhile_eq_self_of_all (by simpa using h)]
  simp

/-- Claim C6: a string that tokenizes to a single non-whitespace chunk
wider than the budget is returned as exactly one line equal to the
word: the loop's too-long special case emits the chunk as its own line,
which survives stripping unchanged, and no line break is inserted. -/
theorem c6_overlong_word (w : String → Nat) (text : String) (maxW : Int)
    (hchunks : split_chunks text = [text])
    (hnws : text.data.all (fun c => !pyIsSpace c))
    (hwide : (w text : Int) > maxW) :
    wrap_font_text w text maxW = text := by
  unfold wrap_font_text
  rw [hchunks]
  have hcond : ((0 : Nat) : Int) + (w text : Int) > maxW := by
    simpa using hwide
  have hlines : wrapLinesOf w maxW [text] = [[text]] := by
    unfold wrapLinesOf
    simp only [List.foldl_cons, List.foldl_nil]
    rw [wrapStep]
    simp only [hcond, if_pos, if_true]
    simp
  rw [hlines]
  have hjoin : String.join [text] = text := by
    show String.join ([text.data].map (fun l => String.mk l)) = text
    rw [string_join_mk]
    simp
  simp only [List.map_cons, List.map_nil, hjoin]
  rw [pyStrip_of_no_ws text hnws]
  rfl

/-- Witness for claim C6 at a concrete input: `"aaaa"` is a single
chunk of measured width 4, which exceeds the budget 3, and wrapping
returns it unchanged. -/
theorem c6_overlong_word_witness :
    split_chunks "aaaa" = ["aaaa"] ∧
      wrap_font_text (fun s => s.length) "aaaa" 3 = "aaaa" :=
  ⟨by decide,
    c6_overlong_word (fun s => s.length) "aaaa" 3 (by decide) (by decide)
      (by decide)⟩

/-! ## The loop invariant of `wrap_font_text`

The loop maintains: a nonzero accumulated width implies the budget is
nonnegative (widths only accumulate through the not-too-long branch);
the current line's measured width is at most the accumulated width
(they differ exactly when a discarded whitespace chunk's width was
kept); a current line of two or more chunks fits the budget; and every
already emitted line either is a single chunk wider than the budget or
fits the budget. -/

/-- The invariant of the `for chunk in chunks` loop. -/
def WrapInv (w : String → Nat) (maxW : Int) (st : WrapState) : Prop :=
  (st.curWidth ≠ 0 → 0 ≤ maxW) ∧
    lineWidth w st.curLine ≤ st.curWidth ∧
    (2 ≤ st.curLine.length → (st.curWidth : Int) ≤ maxW) ∧
    ∀ line ∈ st.lines,
      (∃ c, line = [c] ∧ (w c : Int) > maxW) ∨
        ((lineWidth w line : Int) ≤ maxW)

/-- Measured width of a line extended by one chunk. -/
theorem lineWidth_append (w : String → Nat) (line : List String)
    (c : String) : lineWidth w (line ++ [c]) = lineWidth w line + w c := by
  simp [lineWidth]

/-- Any line of at most one chunk is a single over-wide chunk or fits
any budget it measures under; the dichotomy needed when emitting. -/
theorem short_line_ok (w : String → Nat) (maxW : Int) (c : String) :
    (∃ c', [c] = [c'] ∧ (w c' : Int) > maxW) ∨
      ((lineWidth w [c] : Int) ≤ maxW) := by
  by_cases h : (w c : Int) > maxW
  · exact Or.inl ⟨c, rfl, h⟩
  · right
    have : lineWidth w [c] = w c := by simp [lineWidth]
    rw [this]
    exact le_of_not_lt h

/-- The too-long branch with an empty current line (draw.py lines
103-107): the chunk is emitted alone and the state resets. -/
theorem wrapStep_of_break_zero (w : String → Nat) (maxW : Int)
    (st : WrapState) (c : String)
    (hcond : (st.curWidth : Int) + (w c : Int) > maxW)
    (hz : st.curWidth = 0) :
    wrapStep w maxW st c = ⟨st.lines ++ [[c]], [], 0⟩ := by
  unfold wrapStep
  rw [if_pos hcond, if_pos hz]

/-- The too-long branch with a nonempty current line (draw.py lines
109-111): the current line is emitted; a whitespace chunk is discarded
from the new line's contents but its width is kept as the new
accumulated width. -/
theorem wrapStep_of_break (w : String → Nat) (maxW : Int) (st : WrapState)
    (c : String) (hcond : (st.curWidth : Int) + (w c : Int) > maxW)
    (hz : st.curWidth ≠ 0) :
    wrapStep w maxW st c =
      ⟨st.lines ++ [st.curLine],
       if pyIsSpaceStr c then [] else [c], w c⟩ := by
  unfold wrapStep
  rw [if_pos hcond, if_neg hz]

/-- The fitting branch (draw.py lines 113-115): append the chunk and
accumulate its width. -/
theorem wrapStep_of_fit (w : String → Nat) (maxW : Int) (st : WrapState)
    (c : String) (hcond : ¬((st.curWidth : Int) + (w c : Int) > maxW)) :
    wrapStep w maxW st c =
      ⟨st.lines, st.curLine ++ [c], st.curWidth + w c⟩ := by
  unfold wrapStep
  rw [if_neg hcond]

/-- One loop iteration preserves the invariant. -/
theorem wrapStep_inv (w : String → Nat) (maxW : Int) (st : WrapState)
    (c : String) (h : WrapInv w maxW st) :
    WrapInv w maxW (wrapStep w maxW st c) := by
  obtain ⟨h1, h2, h3, h4⟩ := h
  by_cases hcond : (st.curWidth : Int) + (w c : Int) > maxW
  · by_cases hz : st.curWidth = 0
    · rw [wrapStep_of_break_zero w maxW st c hcond hz]
      refine ⟨fun h => absurd rfl h, by simp [lineWidth], by simp, ?_⟩
      intro line hline
      rcases List.mem_append.mp hline with hl | hl
      · exact h4 line hl
      · have : line = [c] := by simpa using hl
        subst this
        refine Or.inl ⟨c, rfl, ?_⟩
        have : ((0 : Nat) : Int) + (w c : Int) > maxW := by rw [← hz]; exact hcond
        simpa using this
    · rw [wrapStep_of_break w maxW st c hcond hz]
      refine ⟨fun _ => h1 hz, ?_, ?_, ?_⟩
      · by_cases hws : pyIsSpaceStr c
        · simp [hws, lineWidth]
        · simp [hws, lineWidth]
      · intro hlen
        by_cases hws : pyIsSpaceStr c <;> simp [hws] at hlen
      · intro line hline
        rcases List.mem_append.mp hline with hl | hl
        · exact h4 line hl
        · have hcur : line = st.curLine := by simpa using hl
          rw [hcur]
          rcases hcs : st.curLine with _ | ⟨c1, rest1⟩
          · right
            have hz' : lineWidth w ([] : List String) = 0 := by
              simp [lineWidth]
            rw [hz']
            exact_mod_cast h1 hz
          · rcases rest1 with _ | ⟨c2, rest2⟩
            · exact short_line_ok w maxW c1
            · right
              have hlen2 : 2 ≤ st.curLine.length := by rw [hcs]; simp
              have hle := h3 hlen2
              have h2' : lineWidth w (c1 :: c2 :: rest2) ≤ st.curWidth := by
                rw [← hcs]; exact h2
              calc (lineWidth w (c1 :: c2 :: rest2) : Int)
                  ≤ (st.curWidth : Int) := by exact_mod_cast h2'
                _ ≤ maxW := hle
  · rw [wrapStep_of_fit w maxW st c hcond]
    have hle : (st.curWidth : Int) + (w c : Int) ≤ maxW := le_of_not_lt hcond
    refine ⟨fun _ => ?_, ?_, fun _ => ?_, h4⟩
    · calc (0 : Int) ≤ (st.curWidth : Int) + (w c : Int) := by positivity
        _ ≤ maxW := hle
    · rw [lineWidth_append]
      exact Nat.add_le_add_right h2 (w c)
    · exact_mod_cast hle

/-- The whole loop preserves the invariant. -/
theorem wrapFold_inv (w : String → Nat) (maxW : Int) :
    ∀ (chunks : List String) (st : WrapState), WrapInv w maxW st →
      WrapInv w maxW (chunks.foldl (wrapStep w maxW) st) := by
  intro chunks
  induction chunks with
  | nil => intro st h; exact h
  | cons c cs ih =>
    intro st h
    exact ih (wrapStep w maxW st c) (wrapStep_inv w maxW st c h)

/-- Claim C2: every line emitted by `wrap_font_text` either is a single
chunk whose own measured width exceeds `max_width`, or has measured
width (the sum of its chunks' measured widths) at most `max_width`. -/
theorem c2_width_bound (w : String → Nat) (text : String) (maxW : Int)
    (line : List String)
    (hline : line ∈ wrapLinesOf w maxW (split_chunks text)) :
    (∃ c, line = [c] ∧ (w c : Int) > maxW) ∨
      ((lineWidth w line : Int) ≤ maxW) := by
  have hinv : WrapInv w maxW
      ((split_chunks text).foldl (wrapStep w maxW) ⟨[], [], 0⟩) := by
    refine wrapFold_inv w maxW (split_chunks text) ⟨[], [], 0⟩ ?_
    refine ⟨fun h => absurd rfl h, by simp [lineWidth], by simp, by simp⟩
  obtain ⟨h1, h2, h3, h4⟩ := hinv
  unfold wrapLinesOf at hline
  by_cases hemp :
      ((split_chunks text).foldl (wrapStep w maxW) ⟨[], [], 0⟩).curLine.isEmpty
  · rw [if_pos hemp] at hline
    exact h4 line hline
  · rw [if_neg hemp] at hline
    rcases List.mem_append.mp hline with hl | hl
    · exact h4 line hl
    · have hcur :
          line =
            ((split_chunks text).foldl (wrapStep w maxW) ⟨[], [], 0⟩).curLine := by
        simpa using hl
      rw [hcur]
      rcases hcs :
          ((split_chunks text).foldl (wrapStep w maxW) ⟨[], [], 0⟩).curLine with
        _ | ⟨c1, rest1⟩
      · right
        have hz' : lineWidth w ([] : List String) = 0 := by simp [lineWidth]
        rw [hz']
        rw [hcs] at hemp
        simp at hemp
      · rcases rest1 with _ | ⟨c2, rest2⟩
        · exact short_line_ok w maxW c1
        · right
          have hlen2 :
              2 ≤ ((split_chunks text).foldl (wrapStep w maxW)
                ⟨[], [], 0⟩).curLine.length := by
            rw [hcs]; simp
          have hle := h3 hlen2
          have h2' : lineWidth w (c1 :: c2 :: rest2) ≤
              ((split_chunks text).foldl (wrapStep w maxW) ⟨[], [], 0⟩).curWidth := by
            rw [← hcs]; exact h2
          calc (lineWidth w (c1 :: c2 :: rest2) : Int)
              ≤ (((split_chunks text).foldl (wrapStep w maxW)
                  ⟨[], [], 0⟩).curWidth : Int) := by exact_mod_cast h2'
            _ ≤ maxW := hle

/-- Witness for claim C2 at a concrete input: wrapping `"aaa bb"` at
budget 3 with unit character widths emits the line `["aaa"]`, whose
measured width 3 fits the budget. -/
theorem c2_width_bound_witness :
    (["aaa"] ∈ wrapLinesOf (fun s => s.length) 3 (split_chunks "aaa bb")) ∧
      ((∃ c, ["aaa"] = [c] ∧ ((fun s : String => s.length) c : Int) > 3) ∨
        ((lineWidth (fun s => s.length) ["aaa"] : Int) ≤ 3)) :=
  ⟨by decide, c2_width_bound (fun s => s.length) "aaa bb" 3 ["aaa"] (by decide)⟩

/-! ## Lines never split chunks (claim C4) -/

/-- One loop iteration only moves whole chunks: the flattened emitted
lines followed by the current line form a sublist of what they were
plus the new chunk. -/
theorem wrapStep_sublist (w : String → Nat) (maxW : Int) (st : WrapState)
    (c : String) :
    ((wrapStep w maxW st c).lines.flatten ++
        (wrapStep w maxW st c).curLine).Sublist
      ((st.lines.flatten ++ st.curLine) ++ [c]) := by
  by_cases hcond : (st.curWidth : Int) + (w c : Int) > maxW
  · by_cases hz : st.curWidth = 0
    · rw [wrapStep_of_break_zero w maxW st c hcond hz]
      simp only [List.flatten_append, List.flatten_cons, List.flatten_nil,
        List.append_nil]
      rw [List.append_assoc]
      exact List.Sublist.append (List.Sublist.refl _)
        (List.sublist_append_right st.curLine [c])
    · rw [wrapStep_of_break w maxW st c hcond hz]
      simp only [List.flatten_append, List.flatten_cons, List.flatten_nil,
        List.append_nil]
      rw [List.append_assoc, List.append_assoc]
      refine List.Sublist.append (List.Sublist.refl _) ?_
      refine List.Sublist.append (List.Sublist.refl _) ?_
      by_cases hws : pyIsSpaceStr c
      · rw [if_pos hws]; exact List.nil_sublist [c]
      · rw [if_neg hws]
  · rw [wrapStep_of_fit w maxW st c hcond]
    rw [List.append_assoc]

/-- The whole loop only moves whole chunks. -/
theorem wrapFold_sublist (w : String → Nat) (maxW : Int) :
    ∀ (chunks : List String) (st : WrapState),
      ((chunks.foldl (wrapStep w maxW) st).lines.flatten ++
          (chunks.foldl (wrapStep w maxW) st).curLine).Sublist
        ((st.lines.flatten ++ st.curLine) ++ chunks) := by
  intro chunks
  induction chunks with
  | nil => intro st; simp
  | cons c cs ih =>
    intro st
    have step := wrapStep_sublist w maxW st c
    have tail := ih (wrapStep w maxW st c)
    rw [List.foldl_cons]
    refine tail.trans ?_
    have happ := List.Sublist.append step (List.Sublist.refl cs)
    have heq : (((st.lines.flatten ++ st.curLine) ++ [c]) ++ cs) =
        ((st.lines.flatten ++ st.curLine) ++ (c :: cs)) := by
      rw [List.append_assoc]
      simp
    rw [heq] at happ
    exact happ

/-- Claim C4 counterexample: `"aa-bb"` contains no whitespace at all,
so its only maximal non-whitespace run is the whole string, yet the
wrapper (unit character widths, budget 3) emits two lines, breaking at
the hyphen produced by the tokenizer's hyphenated-word splitting. -/
theorem c4_counterexample :
    "aa-bb".data.all (fun c => !pyIsSpace c) = true ∧
      wrap_font_text (fun s => s.length) "aa-bb" 3 = "aa-\nbb" ∧
      (wrapLinesOf (fun s => s.length) 3 (split_chunks "aa-bb")).length = 2 := by
  refine ⟨by decide, by decide, by decide⟩

/-- Claim C4 (amended): every emitted line consists of whole chunks of
the tokenization, in order — chunks are never split across lines, and
line boundaries fall only between chunks; but because the tokenizer
splits hyphenated words, a boundary between chunks may fall inside a
maximal non-whitespace run of the input. -/
theorem c4_no_chunk_splitting (w : String → Nat) (maxW : Int)
    (text : String) :
    ((wrapLinesOf w maxW (split_chunks text)).flatten).Sublist
      (split_chunks text) := by
  have h := wrapFold_sublist w maxW (split_chunks text) ⟨[], [], 0⟩
  simp only [List.flatten_nil, List.nil_append] at h
  unfold wrapLinesOf
  by_cases hemp :
      ((split_chunks text).foldl (wrapStep w maxW) ⟨[], [], 0⟩).curLine.isEmpty
  · rw [if_pos hemp]
    exact (List.sublist_append_left _ _).trans h
  · rw [if_neg hemp]
    simp only [List.flatten_append, List.flatten_cons, List.flatten_nil,
      List.append_nil]
    exact h

/-! ## The discarded-whitespace width slip (claim C5) -/

/-- Claim C5: the code contradicts the specified discard behavior.
After the chunks `"aaa"` and `" "` are processed at budget 3 (unit
character widths), the whitespace chunk has been discarded from the
current line (which is empty) but its width 1 — not zero — is kept as
the accumulated width, so the next chunk `"bbb"` triggers another break
and an empty line is emitted: the output on `"aaa bbb"` is
`"aaa\n\nbbb"` with a spurious blank line, whereas restarting from
width zero, as the claim and the spec describe, would give
`"aaa\nbbb"`. -/
theorem c5_discarded_whitespace_width :
    (List.foldl (wrapStep (fun s => s.length) 3) ⟨[], [], 0⟩
        ["aaa", " "]).curLine = [] ∧
      (List.foldl (wrapStep (fun s => s.length) 3) ⟨[], [], 0⟩
        ["aaa", " "]).curWidth = 1 ∧
      split_chunks "aaa bbb" = ["aaa", " ", "bbb"] ∧
      wrap_font_text (fun s => s.length) "aaa bbb" 3 = "aaa\n\nbbb" := by
  refine ⟨by decide, by decide, by decide, by decide⟩



/-! ## Rounding lemmas (claim C8) -/

/-- Python `round` returns a nearest integer: it never differs from its
argument by more than one half (in particular it never truncates a
fractional part larger than one half). -/
theorem pyRound_nearest (q : Rat) : |(pyRound q : Rat) - q| ≤ 1 / 2 := by
  have h0 : ((⌊q⌋ : Rat)) ≤ q := Int.floor_le q
  have h1 : q < (⌊q⌋ : Rat) + 1 := Int.lt_floor_add_one q
  unfold pyRound
  by_cases hlt : q - (⌊q⌋ : Rat) < 1 / 2
  · rw [if_pos hlt]
    rw [abs_sub_comm, abs_of_nonneg (by linarith)]
    linarith
  · rw [if_neg hlt]
    by_cases hgt : (1 : Rat) / 2 < q - (⌊q⌋ : Rat)
    · rw [if_pos hgt]
      rw [abs_of_nonneg (by push_cast; linarith)]
      push_cast
      linarith
    · rw [if_neg hgt]
      have heq : q - (⌊q⌋ : Rat) = 1 / 2 :=
        le_antisymm (le_of_not_lt hgt) (le_of_not_lt hlt)
      by_cases hev : Even ⌊q⌋
      · rw [if_pos hev]
        rw [abs_sub_comm, abs_of_nonneg (by linarith)]
        linarith
      · rw [if_neg hev]
        rw [abs_of_nonneg (by push_cast; linarith)]
        push_cast
        linarith

/-- Python `round` stays within the range spanned by its argument's
floor and floor plus one. -/
theorem pyRound_bounds (q : Rat) :
    ⌊q⌋ ≤ pyRound q ∧ pyRound q ≤ ⌊q⌋ + 1 := by
  unfold pyRound
  by_cases hlt : q - (⌊q⌋ : Rat) < 1 / 2
  · rw [if_pos hlt]; omega
  · rw [if_neg hlt]
    by_cases hgt : (1 : Rat) / 2 < q - (⌊q⌋ : Rat)
    · rw [if_pos hgt]; omega
    · rw [if_neg hgt]
      by_cases hev : Even ⌊q⌋
      · rw [if_pos hev]; omega
      · rw [if_neg hev]; omega

/-- For a fractional alpha in the unit interval, the rounded scaled
alpha is an integer in the byte range. -/
theorem pyRound_alpha_range (a : Rat) (h0 : 0 ≤ a) (h1 : a ≤ 1) :
    0 ≤ pyRound (a * 255) ∧ pyRound (a * 255) ≤ 255 := by
  have hq0 : (0 : Rat) ≤ a * 255 := by positivity
  have hq1 : a * 255 ≤ 255 := by linarith
  have hf0 : 0 ≤ ⌊a * 255⌋ := Int.floor_nonneg.mpr hq0
  obtain ⟨hb0, hb1⟩ := pyRound_bounds (a * 255)
  constructor
  · omega
  · by_cases hlt : a * 255 - (⌊a * 255⌋ : Rat) < 1 / 2
    · have : pyRound (a * 255) = ⌊a * 255⌋ := by
        unfold pyRound
        rw [if_pos hlt]
      rw [this]
      have : (⌊a * 255⌋ : Rat) ≤ 255 := le_trans (Int.floor_le _) hq1
      exact_mod_cast this
    · have hge : (1 : Rat) / 2 ≤ a * 255 - (⌊a * 255⌋ : Rat) :=
        le_of_not_lt hlt
      have : (⌊a * 255⌋ : Rat) ≤ 254 + 1 / 2 := by linarith
      have hn : ⌊a * 255⌋ ≤ 254 := by
        by_contra hc
        push_neg at hc
        have : (255 : Rat) ≤ (⌊a * 255⌋ : Rat) := by exact_mod_cast hc
        linarith
      omega

/-- Claim C8: `to_pil_color` returns a 3-channel color unchanged and
converts a 4-channel color by keeping RGB and replacing the fractional
alpha with `round(alpha * 255)` — a nearest-integer rounding (never off
by more than one half, hence not a truncation) that lands in 0-255 for
alpha in the unit interval; in particular `(255, 0, 0)` round-trips
unchanged and `(255, 0, 0, 0.4)` maps to `(255, 0, 0, 102)`. -/
theorem c8_to_pil_color :
    (∀ r g b : Int, to_pil_color (.rgb r g b) = .rgb r g b) ∧
      (∀ (r g b : Int) (a : Rat),
        to_pil_color (.rgba r g b a) = .rgba r g b (pyRound (a * 255))) ∧
      (∀ q : Rat, |(pyRound q : Rat) - q| ≤ 1 / 2) ∧
      (∀ a : Rat, 0 ≤ a → a ≤ 1 →
        0 ≤ pyRound (a * 255) ∧ pyRound (a * 255) ≤ 255) ∧
      to_pil_color (.rgb 255 0 0) = .rgb 255 0 0 ∧
      to_pil_color (.rgba 255 0 0 (2 / 5)) = .rgba 255 0 0 102 := by
  refine ⟨fun r g b => rfl, fun r g b a => rfl, pyRound_nearest,
    pyRound_alpha_range, rfl, ?_⟩
  show PilColor.rgba 255 0 0 (pyRound (2 / 5 * 255)) = .rgba 255 0 0 102
  have h1 : (2 : Rat) / 5 * 255 = ((102 : Int) : Rat) := by norm_num
  have h2 : pyRound ((102 : Int) : Rat) = 102 := by
    unfold pyRound
    rw [Int.floor_intCast]
    rw [if_pos (by norm_num)]
  rw [h1, h2]

/-- Witness for claim C8: the hypotheses of the range conjunct hold at
the concrete alpha two fifths, and the concrete conversions
evaluate. -/
theorem c8_to_pil_color_witness :
    (0 ≤ pyRound (2 / 5 * 255) ∧ pyRound (2 / 5 * 255) ≤ 255) ∧
      to_pil_color (.rgba 255 0 0 (2 / 5)) = .rgba 255 0 0 102 :=
  ⟨c8_to_pil_color.2.2.2.1 (2 / 5) (by norm_num) (by norm_num),
    c8_to_pil_color.2.2.2.2.2⟩



/-! ## Compositing lemmas (claim C1) -/

/-- Porter-Duff source-over onto an opaque destination pixel is exactly
the textbook alpha blend: each channel is `src*alpha + dst*(1-alpha)`
with `alpha` the source alpha fraction, and the result is opaque. -/
theorem over_opaque (s d : RGBA) (hd : d.a = 255) :
    over s d =
      ⟨s.r * (s.a / 255) + d.r * (1 - s.a / 255),
       s.g * (s.a / 255) + d.g * (1 - s.a / 255),
       s.b * (s.a / 255) + d.b * (1 - s.a / 255), 255⟩ := by
  unfold over
  rw [hd]
  have h255 : (255 : Rat) / 255 = 1 := by norm_num
  rw [h255]
  have hden : s.a / 255 + 1 * (1 - s.a / 255) = 1 := by ring
  rw [hden]
  rw [if_neg (by norm_num)]
  simp only [RGBA.mk.injEq]
  refine ⟨by ring, by ring, by ring, by ring⟩

/-- For in-range pixels, Porter-Duff source-over satisfies the true
compositing equations in premultiplied (light-contribution) form: the
output alpha fraction is `sa + da*(1 - sa)`, and each premultiplied
output channel is `src*sa + dst_premultiplied*(1 - sa)`. -/
theorem over_premultiplied (s d : RGBA) (hs0 : 0 ≤ s.a) (hs1 : s.a ≤ 255)
    (hd0 : 0 ≤ d.a) (_hd1 : d.a ≤ 255) :
    (over s d).a / 255 = s.a / 255 + d.a / 255 * (1 - s.a / 255) ∧
      (over s d).r * ((over s d).a / 255) =
        s.r * (s.a / 255) + d.r * (d.a / 255) * (1 - s.a / 255) ∧
      (over s d).g * ((over s d).a / 255) =
        s.g * (s.a / 255) + d.g * (d.a / 255) * (1 - s.a / 255) ∧
      (over s d).b * ((over s d).a / 255) =
        s.b * (s.a / 255) + d.b * (d.a / 255) * (1 - s.a / 255) := by
  by_cases hoa : s.a / 255 + d.a / 255 * (1 - s.a / 255) = 0
  · have hsle : s.a / 255 ≤ 1 := by
      rw [div_le_one (by norm_num : (0 : Rat) < 255)]
      exact hs1
    have h1 : 0 ≤ s.a / 255 := by positivity
    have h2 : 0 ≤ d.a / 255 * (1 - s.a / 255) := by
      have hd' : 0 ≤ d.a / 255 := by positivity
      nlinarith
    have hsa0 : s.a / 255 = 0 := by linarith
    have hsa : s.a = 0 := by
      rcases div_eq_zero_iff.mp hsa0 with h | h
      · exact h
      · exact absurd h (by norm_num)
    have hda0 : d.a / 255 * (1 - s.a / 255) = 0 := by linarith
    rw [hsa0] at hda0
    have hda' : d.a / 255 = 0 := by
      have hone : (1 : Rat) - 0 = 1 := by norm_num
      rw [hone, mul_one] at hda0
      exact hda0
    have hda : d.a = 0 := by
      rcases div_eq_zero_iff.mp hda' with h | h
      · exact h
      · exact absurd h (by norm_num)
    unfold over
    rw [if_pos hoa]
    rw [hsa, hda]
    unfold RGBA.clear
    norm_num
  · unfold over
    rw [if_neg hoa]
    have halpha :
        255 * (s.a / 255 + d.a / 255 * (1 - s.a / 255)) / 255 =
          s.a / 255 + d.a / 255 * (1 - s.a / 255) := by
      rw [mul_comm, mul_div_assoc]
      norm_num
    refine ⟨halpha, ?_, ?_, ?_⟩ <;>
      · rw [halpha, div_mul_cancel₀ _ hoa]

/-- Claim C1: with a background configured and an RGBA surface, the
pipeline draws the rectangle only onto a fully transparent overlay of
the surface's size, alpha-composites that overlay onto the surface as a
whole, and draws the text directly onto the composited surface; the
compositing operation is true alpha blending (`out = src*alpha +
dst*(1-alpha)` per channel against an opaque destination, and the
premultiplied compositing equations in general). -/
theorem c1_overlay_compositing (env : DrawEnv) (im : Img) (text : String)
    (f : TextFieldConfig) (c : PyColor)
    (hmode : im.mode = PixMode.RGBA) (hbg : f.bg = some c) :
    draw_text_field env im text f =
      .ok (env.drawText (alphaComposite im (bgOverlay env im text f c))
        (f.x, f.y) (resolvedText env im text f) (resolveFont env f)
        (to_pil_color f.fg)) ∧
      (bgOverlay env im text f c).width = im.width ∧
      (bgOverlay env im text f c).height = im.height ∧
      (bgOverlay env im text f c).mode = PixMode.RGBA ∧
      (∀ x y : Int, inBox (paddedBBox env im text f) x y = false →
        (bgOverlay env im text f c).pix x y = RGBA.clear) ∧
      (∀ x y : Int, inBox (paddedBBox env im text f) x y = true →
        (bgOverlay env im text f c).pix x y =
          pilColorToRGBA (to_pil_color c)) ∧
      (∀ x y : Int, (alphaComposite im (bgOverlay env im text f c)).pix x y =
        over ((bgOverlay env im text f c).pix x y) (im.pix x y)) ∧
      (∀ s d : RGBA, d.a = 255 →
        over s d =
          ⟨s.r * (s.a / 255) + d.r * (1 - s.a / 255),
           s.g * (s.a / 255) + d.g * (1 - s.a / 255),
           s.b * (s.a / 255) + d.b * (1 - s.a / 255), 255⟩) ∧
      (∀ s d : RGBA, 0 ≤ s.a → s.a ≤ 255 → 0 ≤ d.a → d.a ≤ 255 →
        (over s d).a / 255 = s.a / 255 + d.a / 255 * (1 - s.a / 255) ∧
          (over s d).r * ((over s d).a / 255) =
            s.r * (s.a / 255) + d.r * (d.a / 255) * (1 - s.a / 255) ∧
          (over s d).g * ((over s d).a / 255) =
            s.g * (s.a / 255) + d.g * (d.a / 255) * (1 - s.a / 255) ∧
          (over s d).b * ((over s d).a / 255) =
            s.b * (s.a / 255) + d.b * (d.a / 255) * (1 - s.a / 255)) := by
  have hov : (bgOverlay env im text f c).mode = PixMode.RGBA := rfl
  refine ⟨?_, rfl, rfl, hov, ?_, ?_, fun x y => rfl, over_opaque,
    over_premultiplied⟩
  · simp only [draw_text_field, hbg]
    unfold alphaCompositeChecked
    rw [if_pos ⟨hmode, hov⟩]
    rfl
  · intro x y hout
    simp only [bgOverlay, fillRect, transparentImage]
    rw [hout]
    simp
  · intro x y hin
    simp only [bgOverlay, fillRect, transparentImage]
    rw [hin]
    simp

/-- A sample RGBA surface. -/
def sampleIm : Img := ⟨100, 50, PixMode.RGBA, fun _ _ => RGBA.clear⟩

/-- A sample RGB (no alpha channel) surface. -/
def sampleImRGB : Img := ⟨100, 50, PixMode.RGB, fun _ _ => RGBA.clear⟩

/-- A trivial font measuring everything as zero. -/
def trivialFont : Font := ⟨fun _ => (0, 0)⟩

/-- A trivial drawing environment. -/
def trivialEnv : DrawEnv :=
  ⟨trivialFont, fun _ _ => trivialFont, fun _ _ _ => ⟨0, 0, 0, 0⟩,
   fun im _ _ _ _ => im⟩

/-- A sample field with a semi-transparent red background. -/
def sampleFieldBg : TextFieldConfig :=
  ⟨7, 5, "default", 10, PyColor.rgb 0 0 0,
   some (PyColor.rgba 255 0 0 (2 / 5)), ⟨1, 2, 3, 4⟩, false, none⟩

/-- Witness for claim C1 at a concrete surface and field: the
hypotheses hold and the pipeline produces exactly the composited-then-
drawn result. -/
theorem c1_overlay_compositing_witness :
    sampleIm.mode = PixMode.RGBA ∧
      sampleFieldBg.bg = some (PyColor.rgba 255 0 0 (2 / 5)) ∧
      draw_text_field trivialEnv sampleIm "t" sampleFieldBg =
        .ok (trivialEnv.drawText
          (alphaComposite sampleIm
            (bgOverlay trivialEnv sampleIm "t" sampleFieldBg
              (PyColor.rgba 255 0 0 (2 / 5))))
          (sampleFieldBg.x, sampleFieldBg.y)
          (resolvedText trivialEnv sampleIm "t" sampleFieldBg)
          (resolveFont trivialEnv sampleFieldBg)
          (to_pil_color sampleFieldBg.fg)) :=
  ⟨rfl, rfl,
    (c1_overlay_compositing trivialEnv sampleIm "t" sampleFieldBg
      (PyColor.rgba 255 0 0 (2 / 5)) rfl rfl).1⟩



/-! ## Effective max width (claim C7) -/

/-- Claim C7 counterexample: with `max_width` explicitly set to `0`,
Python's truthiness test treats it like unset, and the effective width
is the fallback `im.width - x` (here 93), not the configured 0. -/
theorem c7_counterexample :
    (⟨7, 5, "default", 10, PyColor.rgb 0 0 0, none, ⟨0, 0, 0, 0⟩, true,
        some 0⟩ : TextFieldConfig).max_width = some 0 ∧
      effectiveMaxWidth sampleIm
        ⟨7, 5, "default", 10, PyColor.rgb 0 0 0, none, ⟨0, 0, 0, 0⟩, true,
          some 0⟩ = 93 ∧
      (93 : Int) ≠ 0 := by
  refine ⟨rfl, rfl, by decide⟩

/-- Claim C7 (amended): when the wrap flag is set, the text handed to
the drawing steps is the wrapper's output at the effective max width,
which is the explicit `max_width` whenever it is set and nonzero
(truthy), and the surface width minus the field's x coordinate when
`max_width` is unset or set to zero. -/
theorem c7_effective_max_width (env : DrawEnv) (im : Img) (text : String)
    (f : TextFieldConfig) (hwrap : f.wrap = true) :
    resolvedText env im text f =
      wrap_font_text (fun s => ((resolveFont env f).getsize s).1) text
        (effectiveMaxWidth im f) ∧
      (∀ m : Int, f.max_width = some m → m ≠ 0 →
        effectiveMaxWidth im f = m) ∧
      (f.max_width = none →
        effectiveMaxWidth im f = (im.width : Int) - f.x) ∧
      (f.max_width = some 0 →
        effectiveMaxWidth im f = (im.width : Int) - f.x) := by
  refine ⟨by simp [resolvedText, hwrap], ?_, ?_, ?_⟩
  · intro m hm hne
    unfold effectiveMaxWidth
    rw [hm]
    simp [hne]
  · intro hm
    unfold effectiveMaxWidth
    rw [hm]
  · intro hm
    unfold effectiveMaxWidth
    rw [hm]
    simp

/-- Witness for claim C7: a concrete wrapped field with explicit
nonzero `max_width` 40 gets effective width 40. -/
theorem c7_effective_max_width_witness :
    ((⟨7, 5, "default", 10, PyColor.rgb 0 0 0, none, ⟨0, 0, 0, 0⟩, true,
        some 40⟩ : TextFieldConfig)).wrap = true ∧
      effectiveMaxWidth sampleIm
        ⟨7, 5, "default", 10, PyColor.rgb 0 0 0, none, ⟨0, 0, 0, 0⟩, true,
          some 40⟩ = 40 :=
  ⟨rfl,
    (c7_effective_max_width trivialEnv sampleIm "t"
        ⟨7, 5, "default", 10, PyColor.rgb 0 0 0, none, ⟨0, 0, 0, 0⟩, true,
          some 40⟩ rfl).2.1 40 rfl (by decide)⟩

/-! ## Mode requirement of the background path (claim C10) -/

/-- Claim C10: on a surface whose mode is not RGBA, a field with a
configured background makes `draw_text_field` fail at the
alpha-compositing step with PIL's mode error, before any text is
drawn. -/
theorem c10_rgb_mode_error (env : DrawEnv) (im : Img) (text : String)
    (f : TextFieldConfig) (c : PyColor) (hbg : f.bg = some c)
    (hmode : im.mode ≠ PixMode.RGBA) :
    draw_text_field env im text f = .error DrawErr.modeRGBARequired := by
  simp only [draw_text_field, hbg]
  unfold alphaCompositeChecked
  rw [if_neg (fun h => hmode h.1)]
  rfl

/-- Witness for claim C10: a concrete RGB surface and
background-configured field produce the mode error. -/
theorem c10_rgb_mode_error_witness :
    sampleImRGB.mode = PixMode.RGB ∧
      draw_text_field trivialEnv sampleImRGB "t" sampleFieldBg =
        .error DrawErr.modeRGBARequired :=
  ⟨rfl,
    c10_rgb_mode_error trivialEnv sampleImRGB "t" sampleFieldBg
      (PyColor.rgba 255 0 0 (2 / 5)) rfl (by decide)⟩

/-! ## Fail-fast error propagation (claim C9) -/

/-- Running the field loop past an already-successful prefix continues
from the prefix's result. -/
theorem drawFields_append {ε : Type} (ops : RenderOps ε) :
    ∀ (pre : List TextFieldConfig) (im im' : Img),
      drawFields ops im pre = .ok im' →
      ∀ rest, drawFields ops im (pre ++ rest) = drawFields ops im' rest := by
  intro pre
  induction pre with
  | nil =>
    intro im im' h rest
    have him : im = im' := by
      simpa [drawFields, pure, Except.pure] using h
    rw [him]
    rfl
  | cons p ps ih =>
    intro im im' h rest
    unfold drawFields at h ⊢
    rw [List.foldlM_cons] at h
    rw [show p :: ps ++ rest = p :: (ps ++ rest) from rfl, List.foldlM_cons]
    cases hstep : drawStep ops im p with
    | error e =>
      rw [hstep] at h
      exact Except.noConfusion
        (show (Except.error e : Except ε Img) = Except.ok im' from h)
    | ok im1 =>
      rw [hstep] at h
      have h2 : drawFields ops im1 ps = Except.ok im' := h
      exact ih im1 im' h2 rest

/-- Unfolding the instrumented loop over a nonempty field list. -/
theorem drawFieldsTrace_cons {ε : Type} (ops : RenderOps ε) (im : Img)
    (f : TextFieldConfig) (rest : List TextFieldConfig) :
    drawFieldsTrace ops im (f :: rest) =
      match drawStep ops im f with
      | .error e => (.error e, [f])
      | .ok im2 =>
        ((drawFieldsTrace ops im2 rest).1,
          f :: (drawFieldsTrace ops im2 rest).2) := rfl

/-- Unfolding the instrumented loop over a successfully rendered head
field. -/
theorem drawFieldsTrace_cons_ok {ε : Type} (ops : RenderOps ε) (im : Img)
    (f : TextFieldConfig) (rest : List TextFieldConfig) (im2 : Img)
    (h : drawStep ops im f = .ok im2) :
    drawFieldsTrace ops im (f :: rest) =
      ((drawFieldsTrace ops im2 rest).1,
        f :: (drawFieldsTrace ops im2 rest).2) := by
  rw [drawFieldsTrace_cons, h]

/-- Unfolding the instrumented loop over a failing head field. -/
theorem drawFieldsTrace_cons_error {ε : Type} (ops : RenderOps ε)
    (im : Img) (f : TextFieldConfig) (rest : List TextFieldConfig) (e : ε)
    (h : drawStep ops im f = .error e) :
    drawFieldsTrace ops im (f :: rest) = (.error e, [f]) := by
  rw [drawFieldsTrace_cons, h]

/-- The instrumented field loop past an already-successful prefix
records the prefix as attempted and continues. -/
theorem drawFieldsTrace_append {ε : Type} (ops : RenderOps ε) :
    ∀ (pre : List TextFieldConfig) (im im' : Img),
      drawFields ops im pre = .ok im' →
      ∀ rest,
        drawFieldsTrace ops im (pre ++ rest) =
          ((drawFieldsTrace ops im' rest).1,
            pre ++ (drawFieldsTrace ops im' rest).2) := by
  intro pre
  induction pre with
  | nil =>
    intro im im' h rest
    have him : im = im' := by
      simpa [drawFields, pure, Except.pure] using h
    rw [him]
    rfl
  | cons p ps ih =>
    intro im im' h rest
    unfold drawFields at h
    rw [List.foldlM_cons] at h
    cases hstep : drawStep ops im p with
    | error e =>
      rw [hstep] at h
      exact Except.noConfusion
        (show (Except.error e : Except ε Img) = Except.ok im' from h)
    | ok im1 =>
      rw [hstep] at h
      have h2 : drawFields ops im1 ps = Except.ok im' := h
      show drawFieldsTrace ops im (p :: (ps ++ rest)) = _
      rw [drawFieldsTrace_cons_ok ops im p (ps ++ rest) im1 hstep]
      rw [ih im1 im' h2 rest]
      rfl

/-- Claim C9: no error raised while resolving or rendering a field is
caught or retried inside the rendering pass: if every field before `f`
succeeds and `f`'s resolve-and-render step raises `e`, the whole pass
returns exactly `e`, and the fields after `f` are never attempted. -/
theorem c9_fail_fast {ε : Type} (ops : RenderOps ε)
    (pre : List TextFieldConfig) (f : TextFieldConfig)
    (post : List TextFieldConfig) (im im' : Img) (e : ε)
    (hpre : drawFields ops im pre = .ok im')
    (hf : drawStep ops im' f = .error e) :
    drawFields ops im (pre ++ f :: post) = .error e ∧
      drawFieldsTrace ops im (pre ++ f :: post) = (.error e, pre ++ [f]) := by
  constructor
  · rw [drawFields_append ops pre im im' hpre (f :: post)]
    unfold drawFields
    rw [List.foldlM_cons, hf]
    rfl
  · rw [drawFieldsTrace_append ops pre im im' hpre (f :: post)]
    rw [drawFieldsTrace_cons_error ops im' f post e hf]

/-- A sample minimal field at position `n`. -/
def sampleField (n : Int) : TextFieldConfig :=
  ⟨n, 0, "f", 10, PyColor.rgb 0 0 0, none, ⟨0, 0, 0, 0⟩, false, none⟩

/-- Sample collaborators whose value resolution fails exactly on the
field at position 1. -/
def failOps : RenderOps String :=
  ⟨fun f => if f.x = 1 then .error "boom" else .ok "v",
   fun im _ _ => .ok im⟩

/-- Witness for claim C9: with three fields of which the middle one
fails, the pass returns the error unchanged and the third field is not
attempted. -/
theorem c9_fail_fast_witness :
    drawFields failOps sampleIm
        [sampleField 0, sampleField 1, sampleField 2] = .error "boom" ∧
      drawFieldsTrace failOps sampleIm
        [sampleField 0, sampleField 1, sampleField 2] =
        (.error "boom", [sampleField 0, sampleField 1]) :=
  c9_fail_fast failOps [sampleField 0] (sampleField 1) [sampleField 2]
    sampleIm sampleIm "boom" rfl rfl

end FMCardGen
